import Mathlib

/-!
Shallow embedding of the host programs and OpenCL kernels of the
opencl-windows-examples repository, together with proofs about them.

Conventions used throughout:
* flat device/host arrays are modelled as total functions from indices
  (`Nat`) to element values;
* C `int` array elements are modelled as `Int` (no arithmetic in the
  examples comes near the 32-bit range in a way that affects the claims);
* C `float` values are modelled as real numbers and C `double` timings as
  rationals: the claims proved about them concern which operations are
  performed, in which order, and which branches are taken, none of which
  depends on rounding;
* a kernel launch over a 1-D global range is the left fold of the single
  work-item effect over global ids `0, 1, ..., globalSize - 1`;
* fallible or partial computations return `Option`.
-/

namespace OpenCL

/-! ## Example 004 (async multidevice): data and work distribution

Source: src/examples/004_async_multidevice/main.cpp.
-/

/-- ARRAY_SIZE from 004: `#define ARRAY_SIZE (1024 * 1024 * 16)`. -/
def ARRAY_SIZE : Nat := 1024 * 1024 * 16

/-- Chunk size per device: `int chunk_size = ARRAY_SIZE / num_devices;`
(C integer division, total on `Nat`). -/
def chunk_size (num_devices : Nat) : Nat := ARRAY_SIZE / num_devices

/-- Offset of device `i`: `int offset = i * chunk_size;`. -/
def chunkOffset (num_devices i : Nat) : Nat := i * chunk_size num_devices

/-- Size of device `i`'s chunk:
`int size = (i == num_devices - 1) ? (ARRAY_SIZE - offset) : chunk_size;`. -/
def chunkLen (num_devices i : Nat) : Nat :=
  if i = num_devices - 1 then ARRAY_SIZE - chunkOffset num_devices i
  else chunk_size num_devices

/-- The set of global array indices handled by device `i`. -/
def chunk (num_devices i : Nat) : Finset Nat :=
  Finset.Ico (chunkOffset num_devices i)
    (chunkOffset num_devices i + chunkLen num_devices i)

/-- Guarded version of the chunk-size division, making the division-by-zero
error branch of `ARRAY_SIZE / num_devices` explicit: the C source divides
without any test on `num_devices` (main.cpp line 97 follows directly after
the discovery loop), so the division is evaluated for every discovered
device count, including zero. -/
def chunkSizeChecked (num_devices : Nat) : Option Nat :=
  if num_devices = 0 then none else some (ARRAY_SIZE / num_devices)

/-! ## Example 004: the int vector_add kernel and the multi-device run

The kernel source built by 004 (vector_add.cl, int element type) is
`C[i] = A[i] + B[i];` with `int i = get_global_id(0);` and a fourth
argument `const int offset` that the kernel body never uses.
-/

/-- Work-item body of 004's vector_add kernel at global id `i`. -/
def vector_add004 (A B : Nat → Int) (offset : Int) (i : Nat) : Int := A i + B i

/-- Contents of a device input buffer after
`clEnqueueWriteBuffer(..., sizeof(int) * size, &A[offset], ...)`:
buffer element `g` holds `A[offset + g]`. -/
def deviceInBuf (A : Nat → Int) (offset : Nat) : Nat → Int :=
  fun g => A (offset + g)

/-- Contents of a device's c_buf after the kernel ran over global range
`0 .. size-1` (`global_size = size`, each work item writing its own id). -/
def deviceOutBuf (A B : Nat → Int) (offset : Nat) : Nat → Int :=
  fun g => vector_add004 (deviceInBuf A offset) (deviceInBuf B offset)
    (Int.ofNat offset) g

/-- Host array `C` after `clEnqueueReadBuffer` copied `size` elements of a
device buffer back starting at `&C[offset]`. -/
def readBackChunk (C : Nat → Int) (cbuf : Nat → Int) (offset size : Nat) :
    Nat → Int :=
  fun j => if offset ≤ j ∧ j < offset + size then cbuf (j - offset) else C j

/-- Host array `C` after the chunks of devices `0 .. k-1` (out of
`num_devices` total) have been computed and read back, in loop order. -/
def runDevices (A B : Nat → Int) (num_devices : Nat) :
    Nat → (Nat → Int) → Nat → Int
  | 0, C => C
  | k + 1, C =>
      readBackChunk (runDevices A B num_devices k C)
        (deviceOutBuf A B (chunkOffset num_devices k))
        (chunkOffset num_devices k) (chunkLen num_devices k)

/-- The complete multi-device run of example 004: every device's chunk
written, computed and read back into `C`. -/
def multiDeviceC (A B : Nat → Int) (num_devices : Nat) (C : Nat → Int) :
    Nat → Int :=
  runDevices A B num_devices num_devices C

/-- A single device processing the whole array in one launch
(offset 0, size ARRAY_SIZE). -/
def singleDeviceC (A B : Nat → Int) (C : Nat → Int) : Nat → Int :=
  readBackChunk C (deviceOutBuf A B 0) 0 ARRAY_SIZE

/-! ## The guarded float vector_add kernel

Source: the kernel file shared by the vector-addition examples,
`if (gid < n) result[gid] = a[gid] + b[gid];` with
`int gid = get_global_id(0);`. Floats are modelled as reals.
-/

/-- Effect of one work item of the guarded vector_add kernel: a work item
with `gid < n` writes `a[gid] + b[gid]` to `result[gid]`; a work item with
`gid ≥ n` performs no write, so every element is left unchanged. -/
def vector_add_item (a b : Nat → ℝ) (n : Nat) (result : Nat → ℝ)
    (gid : Nat) : Nat → ℝ :=
  fun j => if gid < n ∧ j = gid then a gid + b gid else result j

/-- The guarded kernel launched over global ids `0 .. globalSize - 1`. -/
def vector_add_run (a b : Nat → ℝ) (n globalSize : Nat) (result : Nat → ℝ) :
    Nat → ℝ :=
  (List.range globalSize).foldl (vector_add_item a b n) result

/-! ## Example 003 (breakeven analysis)

Source: the breakeven main: per device it keeps `foundBreakeven` and
`breakevenPoints` (initially false / 0) and for each tested size, in list
order, runs
`if (!foundBreakeven[i] && openclTime < cpuTime) { breakevenPoints[i] = testSize; foundBreakeven[i] = true; }`.
The summary prints `breakevenPoints[i]` when `foundBreakeven[i]` and
prints the not-reached message otherwise. Double timings are modelled as
rationals.
-/

/-- The tested vector sizes, in the order the program iterates them. -/
def testSizes : List Nat :=
  [1024, 4096, 16384, 65536, 262144, 1048576, 4194304, 16777216,
   67108864, 134217728]

/-- Per-device breakeven bookkeeping: `foundBreakeven[i]` and
`breakevenPoints[i]`. -/
structure BreakevenState where
  found : Bool
  point : Nat
deriving DecidableEq, Repr

/-- One iteration of the size loop for one device. -/
def breakevenStep (cpu opencl : Nat → ℚ) (st : BreakevenState) (s : Nat) :
    BreakevenState :=
  if st.found = false ∧ opencl s < cpu s then ⟨true, s⟩ else st

/-- The size loop for one device over an arbitrary size list, from the
initial state. -/
def breakevenFoldl (cpu opencl : Nat → ℚ) (l : List Nat) : BreakevenState :=
  l.foldl (breakevenStep cpu opencl) ⟨false, 0⟩

/-- The whole size loop for one device, from the initial state. -/
def breakevenRun (cpu opencl : Nat → ℚ) : BreakevenState :=
  breakevenFoldl cpu opencl testSizes

/-! ## Example 004: verification loop

Source: main.cpp lines 240-251: `correct` starts true, and for
`i = 0 .. 9` a mismatch `C[i] != A[i] + B[i]` sets it to false; the
program prints PASSED iff `correct` survived.
-/

/-- Verdict of 004's verification loop over the first 10 elements. -/
def verify004 (A B C : Nat → Int) : Bool :=
  (List.range 10).foldl (fun ok i => if C i = A i + B i then ok else false)
    true

/-! ## Error handling across the examples -/

/-- Control action an error-handling branch takes. -/
inductive HostAction where
  | proceed
  | skipPlatform
  | exitWith (code : Nat)
deriving DecidableEq, Repr

/-- CL_SUCCESS status value. -/
def CL_SUCCESS : Int := 0

/-- The checkError helper of examples 001/003/005/006 and, identically, the
CHECK_ERROR macro of 004: on any status other than CL_SUCCESS it prints a
diagnostic and calls exit(1); otherwise control proceeds. -/
def checkError (err : Int) : HostAction :=
  if err ≠ CL_SUCCESS then .exitWith 1 else .proceed

/-- Branch taken by example 000's platform loop after the device-count
query (000 main.cpp lines 55-61): on a non-success status the program
prints a skipping message and `continue`s with the next platform; it does
not exit. -/
def deviceQueryBranch000 (err : Int) : HostAction :=
  if err ≠ CL_SUCCESS then .skipPlatform else .proceed

/-- Branch taken by the device-discovery loops of 004/005/006
(`if (err == CL_SUCCESS && numDevices > 0) \x7b ... \x7d`): a platform whose
device query fails is silently skipped. -/
def discoveryBranch (err : Int) (numDevices : Nat) : HostAction :=
  if err = CL_SUCCESS ∧ 0 < numDevices then .proceed else .skipPlatform

/-! ## Matrix multiply kernels (matmul.cl of example 006)

Floats modelled as reals; `sum` accumulates by a left fold, mirroring the
sequential `for` accumulation of each work item.
-/

/-- TILE_SIZE of the tiled kernel. -/
def TILE_SIZE : Nat := 16

/-- Value the naive matrix_multiply kernel writes to C[row*K+col] for an
in-range work item: `sum += A[row * N + i] * B[i * K + col]` for
`i = 0 .. N-1`, starting from 0.0f. -/
def matrix_multiply_entry (A B : Nat → ℝ) (N K row col : Nat) : ℝ :=
  (List.range N).foldl (fun sum i => sum + A (row * N + i) * B (i * K + col)) 0

/-- A_tile element at local position (lr, lc) for tile `t`, as loaded (after
the barrier) by the work item at local position (lr, lc) of the work group
in group-row `groupRow`: out-of-range elements are loaded as 0.0f. -/
def A_tile (A : Nat → ℝ) (M N groupRow t lr lc : Nat) : ℝ :=
  if groupRow * TILE_SIZE + lr < M ∧ t * TILE_SIZE + lc < N then
    A ((groupRow * TILE_SIZE + lr) * N + (t * TILE_SIZE + lc))
  else 0

/-- B_tile element at local position (lr, lc) for tile `t`, as loaded by the
work item at local position (lr, lc) of the work group in group-column
`groupCol`: out-of-range elements are loaded as 0.0f. -/
def B_tile (B : Nat → ℝ) (N K groupCol t lr lc : Nat) : ℝ :=
  if t * TILE_SIZE + lr < N ∧ groupCol * TILE_SIZE + lc < K then
    B ((t * TILE_SIZE + lr) * K + (groupCol * TILE_SIZE + lc))
  else 0

/-- Number of tiles: `(N + TILE_SIZE - 1) / TILE_SIZE`. -/
def numTiles (N : Nat) : Nat := (N + TILE_SIZE - 1) / TILE_SIZE

/-- Accumulator of the tiled kernel work item at global position
(row, col): for each tile `t` it adds
`A_tile[localRow * TILE_SIZE + k] * B_tile[k * TILE_SIZE + localCol]`
for `k = 0 .. TILE_SIZE - 1`. -/
def matrix_multiply_tiled_entry (A B : Nat → ℝ) (M N K row col : Nat) : ℝ :=
  (List.range (numTiles N)).foldl
    (fun sum t =>
      (List.range TILE_SIZE).foldl
        (fun s k =>
          s + A_tile A M N (row / TILE_SIZE) t (row % TILE_SIZE) k *
            B_tile B N K (col / TILE_SIZE) t k (col % TILE_SIZE)) sum)
    0

/-- The list of products the naive kernel accumulates, in order. -/
def naiveTerms (A B : Nat → ℝ) (N K row col : Nat) : List ℝ :=
  (List.range N).map (fun i => A (row * N + i) * B (i * K + col))

/-- The list of products the tiled kernel accumulates, in order (tile-major,
then the 16 inner steps of each tile). -/
def tiledTerms (A B : Nat → ℝ) (M N K row col : Nat) : List ℝ :=
  (List.range (numTiles N)).flatMap
    (fun t => (List.range TILE_SIZE).map
      (fun k => A_tile A M N (row / TILE_SIZE) t (row % TILE_SIZE) k *
        B_tile B N K (col / TILE_SIZE) t k (col % TILE_SIZE)))

/-! ## Example 006: matmulSerial

Source: 006 main.cpp lines 32-50; floats modelled as reals, the output
array `C` as a total function updated write by write.
-/

/-- One array store `C[idx] = v`. -/
def writeAt (C : Nat → ℝ) (idx : Nat) (v : ℝ) : Nat → ℝ :=
  fun m => if m = idx then v else C m

/-- The inner accumulation of matmulSerial for output element (i, j):
`sum += A[i * N + k] * B[k * K + j]` for `k = 0 .. N-1` from 0.0f. -/
def matmulInner (A B : Nat → ℝ) (N K i j : Nat) : ℝ :=
  (List.range N).foldl (fun sum k => sum + A (i * N + k) * B (k * K + j)) 0

/-- The `j` loop of matmulSerial for row `i`. -/
def matmulRow (A B : Nat → ℝ) (N K i : Nat) (C : Nat → ℝ) : Nat → ℝ :=
  (List.range K).foldl
    (fun c j => writeAt c (i * K + j) (matmulInner A B N K i j)) C

/-- matmulSerial of example 006: the double loop over rows `i < M` and
columns `j < K`, writing `C[i * K + j]`. -/
def matmulSerial (A B : Nat → ℝ) (M N K : Nat) (C : Nat → ℝ) : Nat → ℝ :=
  (List.range M).foldl (fun c i => matmulRow A B N K i c) C

/-! ## Example 004: order of operations as an event trace

The straight-line main of 004 is modelled as the list of observable
actions it performs, in program order: one setup loop (context, queue,
program build, kernel, three buffers, two input writes, argument setup,
per device), a launch loop, a wait loop, the timeline loop reading the
profiling times, the pairwise concurrency analysis reading them again, the
read-back loop and the release loop (eight clRelease* calls per device).
-/

/-- Observable actions of 004's main. -/
inductive Ev where
  | enumerate
  | createCtx (i : Nat)
  | createQueue (i : Nat)
  | build (i : Nat)
  | createKernel (i : Nat)
  | createBuf (i : Nat) (b : Nat)
  | writeBuf (i : Nat) (b : Nat)
  | setArgs (i : Nat)
  | launch (i : Nat)
  | wait (i : Nat)
  | readTime (i : Nat)
  | readChunk (i : Nat)
  | release (i : Nat) (o : Nat)
deriving DecidableEq, Repr

/-- Setup-loop body for device `i`, in program order. -/
def setupEvents (i : Nat) : List Ev :=
  [.createCtx i, .createQueue i, .build i, .createKernel i,
   .createBuf i 0, .createBuf i 1, .createBuf i 2,
   .writeBuf i 0, .writeBuf i 1, .setArgs i]

/-- The setup loop over devices `0 .. n-1`. -/
def setupPhase : Nat → List Ev
  | 0 => []
  | n + 1 => setupPhase n ++ setupEvents (n)

/-- The launch loop. -/
def launchPhase : Nat → List Ev
  | 0 => []
  | n + 1 => launchPhase n ++ [.launch n]

/-- The clWaitForEvents loop. -/
def waitPhase : Nat → List Ev
  | 0 => []
  | n + 1 => waitPhase n ++ [.wait n]

/-- The timeline loop: two profiling reads (start and end) per device. -/
def timelinePhase : Nat → List Ev
  | 0 => []
  | n + 1 => timelinePhase n ++ [.readTime n, .readTime n]

/-- The concurrency-analysis double loop: for each pair i < j it reads the
four profiling times again. -/
def concPhase (n : Nat) : List Ev :=
  (List.range n).flatMap (fun i =>
    (List.range n).flatMap (fun j =>
      if i < j then [.readTime i, .readTime i, .readTime j, .readTime j]
      else []))

/-- The read-back loop. -/
def readPhase : Nat → List Ev
  | 0 => []
  | n + 1 => readPhase n ++ [.readChunk n]

/-- Release-loop body for device `i`: the eight clRelease* calls. -/
def releaseEvents (i : Nat) : List Ev :=
  [.release i 0, .release i 1, .release i 2, .release i 3,
   .release i 4, .release i 5, .release i 6, .release i 7]

/-- The release loop. -/
def releasePhase : Nat → List Ev
  | 0 => []
  | n + 1 => releasePhase n ++ releaseEvents (n)

/-- The full trace of 004's main for `n` discovered devices, in program
order: enumerate, setup, launch, wait, timeline, concurrency analysis,
read back, release. -/
def trace004 (n : Nat) : List Ev :=
  ([Ev.enumerate] ++ setupPhase n) ++
    (launchPhase n ++ (waitPhase n ++ (timelinePhase n ++
      (concPhase n ++ (readPhase n ++ releasePhase n)))))

/-- `Precedes a b tr`: every occurrence of `b` in `tr` is preceded by an
occurrence of `a`. -/
def Precedes (a b : Ev) (tr : List Ev) : Prop :=
  ∀ q (hq : q < tr.length), tr.get ⟨q, hq⟩ = b →
    ∃ p, ∃ hp : p < tr.length, p < q ∧ tr.get ⟨p, hp⟩ = a

end OpenCL

namespace OpenCL

/-! ## Helper lemmas about the 004 chunk decomposition -/

theorem chunk_size_mul_le (n : Nat) : n * chunk_size n ≤ ARRAY_SIZE := by
  rw [Nat.mul_comm]
  exact Nat.div_mul_le_self ARRAY_SIZE n

theorem chunkOffset_le (n i : Nat) (hi : i ≤ n) :
    chunkOffset n i ≤ ARRAY_SIZE := by
  calc chunkOffset n i = i * chunk_size n := rfl
    _ ≤ n * chunk_size n := Nat.mul_le_mul_right _ hi
    _ ≤ ARRAY_SIZE := chunk_size_mul_le n

theorem chunkLen_sum (n : Nat) (hn : 1 ≤ n) :
    ∑ i ∈ Finset.range n, chunkLen n i = ARRAY_SIZE := by
  obtain ⟨m, rfl⟩ : ∃ m, n = m + 1 := ⟨n - 1, (Nat.succ_pred_eq_of_pos hn).symm⟩
  rw [Finset.sum_range_succ]
  have hlast : chunkLen (m + 1) m = ARRAY_SIZE - chunkOffset (m + 1) m := by
    simp [chunkLen]
  have hmid : ∑ i ∈ Finset.range m, chunkLen (m + 1) i = m * chunk_size (m + 1) := by
    have h1 : ∀ i ∈ Finset.range m, chunkLen (m + 1) i = chunk_size (m + 1) := by
      intro i hi
      have : i ≠ m := Nat.ne_of_lt (Finset.mem_range.mp hi)
      simp [chunkLen, this]
    rw [Finset.sum_congr rfl h1, Finset.sum_const, Finset.card_range, smul_eq_mul]
  rw [hlast, hmid]
  have hoff : chunkOffset (m + 1) m = m * chunk_size (m + 1) := rfl
  have hle : chunkOffset (m + 1) m ≤ ARRAY_SIZE :=
    chunkOffset_le _ _ (Nat.le_succ m)
  omega

theorem chunk_end_le_offset (n i j : Nat) (hij : i < j) (hj : j < n) :
    chunkOffset n i + chunkLen n i ≤ chunkOffset n j := by
  have hine : i ≠ n - 1 := by omega
  have hlen : chunkLen n i = chunk_size n := by simp [chunkLen, hine]
  rw [hlen]
  show i * chunk_size n + chunk_size n ≤ j * chunk_size n
  calc i * chunk_size n + chunk_size n = (i + 1) * chunk_size n := by ring
    _ ≤ j * chunk_size n := Nat.mul_le_mul_right _ hij

theorem chunks_disjoint (n i j : Nat) (hi : i < n) (hj : j < n) (hne : i ≠ j) :
    Disjoint (chunk n i) (chunk n j) := by
  have key : ∀ a b, a < b → b < n → Disjoint (chunk n a) (chunk n b) := by
    intro a b hab hb
    rw [Finset.disjoint_left]
    intro x hxa hxb
    rw [chunk, Finset.mem_Ico] at hxa hxb
    have := chunk_end_le_offset n a b hab hb
    omega
  rcases Nat.lt_or_ge i j with h | h
  · exact key i j h hj
  · have hji : j < i := lt_of_le_of_ne h (Ne.symm hne)
    exact (key j i hji hi).symm

theorem chunks_biUnion_aux (n : Nat) :
    ∀ k, k ≤ n - 1 →
      Finset.biUnion (Finset.range k) (chunk n) = Finset.Ico 0 (chunkOffset n k) := by
  intro k
  induction k with
  | zero => intro _; simp [chunkOffset]
  | succ k ih =>
    intro hk
    have hk' : k ≤ n - 1 := Nat.le_of_succ_le hk
    have hkne : k ≠ n - 1 := by omega
    rw [Finset.range_succ, Finset.biUnion_insert, ih hk']
    have hlen : chunkLen n k = chunk_size n := by simp [chunkLen, hkne]
    have hend : chunkOffset n k + chunkLen n k = chunkOffset n (k + 1) := by
      rw [hlen]
      show k * chunk_size n + chunk_size n = (k + 1) * chunk_size n
      ring
    rw [chunk, hend, Finset.union_comm,
      Finset.Ico_union_Ico_eq_Ico (Nat.zero_le _) ?_]
    show chunkOffset n k ≤ chunkOffset n (k + 1)
    exact Nat.mul_le_mul_right _ (Nat.le_succ k)

theorem chunks_biUnion (n : Nat) (hn : 1 ≤ n) :
    Finset.biUnion (Finset.range n) (chunk n) = Finset.range ARRAY_SIZE := by
  obtain ⟨m, rfl⟩ : ∃ m, n = m + 1 := ⟨n - 1, (Nat.succ_pred_eq_of_pos hn).symm⟩
  rw [Finset.range_succ, Finset.biUnion_insert,
    chunks_biUnion_aux (m + 1) m (by omega)]
  have hlast : chunkLen (m + 1) m = ARRAY_SIZE - chunkOffset (m + 1) m := by
    simp [chunkLen]
  have hle : chunkOffset (m + 1) m ≤ ARRAY_SIZE :=
    chunkOffset_le _ _ (Nat.le_succ m)
  have hend : chunkOffset (m + 1) m + chunkLen (m + 1) m = ARRAY_SIZE := by
    rw [hlast]; omega
  rw [chunk, hend, Finset.union_comm,
    Finset.Ico_union_Ico_eq_Ico (Nat.zero_le _) hle, Finset.range_eq_Ico]

theorem chunks_cover_mem (n : Nat) (hn : 1 ≤ n) (j : Nat) (hj : j < ARRAY_SIZE) :
    ∃ i, i < n ∧ j ∈ chunk n i := by
  have hmem : j ∈ Finset.biUnion (Finset.range n) (chunk n) := by
    rw [chunks_biUnion n hn]
    exact Finset.mem_range.mpr hj
  obtain ⟨i, hi, hji⟩ := Finset.mem_biUnion.mp hmem
  exact ⟨i, Finset.mem_range.mp hi, hji⟩

/-! ## Helper lemmas about the 004 multi-device run -/

theorem runDevices_covered (A B : Nat → Int) (n : Nat) (C : Nat → Int)
    (k : Nat) (hk : k ≤ n) (i j : Nat) (hi : i < k) (hj : j ∈ chunk n i) :
    runDevices A B n k C j = A j + B j := by
  induction k generalizing i with
  | zero => omega
  | succ k ih =>
    rw [runDevices]
    by_cases hin : chunkOffset n k ≤ j ∧ j < chunkOffset n k + chunkLen n k
    · rw [readBackChunk, if_pos hin]
      have hoff : chunkOffset n k + (j - chunkOffset n k) = j := by omega
      simp [deviceOutBuf, vector_add004, deviceInBuf, hoff]
    · rw [readBackChunk, if_neg hin]
      have hik : i ≠ k := by
        intro h
        subst h
        rw [chunk, Finset.mem_Ico] at hj
        exact hin hj
      exact ih (by omega) i (by omega) hj

/-! ## Helper lemmas: the guarded vector_add kernel -/

theorem vector_add_run_eval (a b : Nat → ℝ) (n : Nat) :
    ∀ (globalSize : Nat) (r0 : Nat → ℝ) (j : Nat),
      vector_add_run a b n globalSize r0 j =
        if j < n ∧ j < globalSize then a j + b j else r0 j := by
  intro G
  induction G with
  | zero => intro r0 j; simp [vector_add_run]
  | succ G ih =>
    intro r0 j
    rw [vector_add_run, List.range_succ, List.foldl_append, List.foldl_cons,
      List.foldl_nil]
    have hrun : (List.range G).foldl (vector_add_item a b n) r0 =
        vector_add_run a b n G r0 := rfl
    rw [hrun]
    simp only [vector_add_item]
    by_cases h : G < n ∧ j = G
    · rw [if_pos h, if_pos (by omega : j < n ∧ j < G + 1)]
      obtain ⟨h1, h2⟩ := h
      subst h2
      rfl
    · rw [if_neg h, ih r0 j,
        if_congr (by omega : (j < n ∧ j < G) ↔ (j < n ∧ j < G + 1)) rfl rfl]

/-! ## Helper lemmas: the verification fold of example 004 -/

theorem verify_foldl_false (P : Nat → Prop) [DecidablePred P] :
    ∀ l : List Nat,
      l.foldl (fun ok i => if P i then ok else false) false = false := by
  intro l
  induction l with
  | nil => rfl
  | cons x l ih =>
    rw [List.foldl_cons]
    by_cases h : P x
    · rw [if_pos h]; exact ih
    · rw [if_neg h]; exact ih

theorem verify_foldl_true_iff (P : Nat → Prop) [DecidablePred P] :
    ∀ l : List Nat,
      (l.foldl (fun ok i => if P i then ok else false) true = true) ↔
        ∀ i ∈ l, P i := by
  intro l
  induction l with
  | nil => simp
  | cons x l ih =>
    rw [List.foldl_cons]
    by_cases h : P x
    · rw [if_pos h]
      constructor
      · intro hl
        intro i hi
        rcases List.mem_cons.mp hi with rfl | hmem
        · exact h
        · exact (ih.mp hl) i hmem
      · intro hall
        exact ih.mpr (fun i hi => hall i (List.mem_cons_of_mem x hi))
    · rw [if_neg h, verify_foldl_false P l]
      constructor
      · intro hfalse; exact absurd hfalse (by simp)
      · intro hall; exact absurd (hall x (List.mem_cons_self x l)) h

theorem foldl_congr_fun {α β : Type} (l : List α) (f g : β → α → β)
    (h : ∀ s, ∀ i ∈ l, f s i = g s i) :
    ∀ s, l.foldl f s = l.foldl g s := by
  induction l with
  | nil => intro s; rfl
  | cons x l ih =>
    intro s
    rw [List.foldl_cons, List.foldl_cons, h s x (List.mem_cons_self x l)]
    exact ih (fun s i hi => h s i (List.mem_cons_of_mem x hi)) _

/-! ## Helper lemmas: the breakeven fold of example 003 -/

theorem breakeven_foldl_found (cpu opencl : Nat → ℚ) :
    ∀ (l : List Nat) (st : BreakevenState), st.found = true →
      l.foldl (breakevenStep cpu opencl) st = st := by
  intro l
  induction l with
  | nil => intro st _; rfl
  | cons x l ih =>
    intro st hst
    rw [List.foldl_cons]
    have hstep : breakevenStep cpu opencl st x = st := by
      rw [breakevenStep, if_neg]
      intro hcontra
      rw [hst] at hcontra
      exact absurd hcontra.1 (by simp)
    rw [hstep]
    exact ih st hst

theorem breakeven_foldl_spec (cpu opencl : Nat → ℚ) :
    ∀ l : List Nat, l.Pairwise (· < ·) →
      ((breakevenFoldl cpu opencl l).found = true ↔
        ∃ s ∈ l, opencl s < cpu s) ∧
      ((breakevenFoldl cpu opencl l).found = true →
        (breakevenFoldl cpu opencl l).point ∈ l ∧
        opencl (breakevenFoldl cpu opencl l).point <
          cpu (breakevenFoldl cpu opencl l).point ∧
        ∀ s ∈ l, opencl s < cpu s → (breakevenFoldl cpu opencl l).point ≤ s) := by
  intro l
  induction l with
  | nil => intro _; constructor
           · simp [breakevenFoldl]
           · intro h; exact absurd h (by simp [breakevenFoldl])
  | cons x l ih =>
    intro hpw
    have hx : ∀ s ∈ l, x < s := fun s hs => (List.pairwise_cons.mp hpw).1 s hs
    have hpl : l.Pairwise (· < ·) := (List.pairwise_cons.mp hpw).2
    by_cases hP : opencl x < cpu x
    · have hstep : breakevenStep cpu opencl ⟨false, 0⟩ x = ⟨true, x⟩ := by
        rw [breakevenStep, if_pos ⟨rfl, hP⟩]
      have hrun : breakevenFoldl cpu opencl (x :: l) = ⟨true, x⟩ := by
        rw [breakevenFoldl, List.foldl_cons, hstep]
        exact breakeven_foldl_found cpu opencl l ⟨true, x⟩ rfl
      rw [hrun]
      refine ⟨⟨fun _ => ⟨x, List.mem_cons_self x l, hP⟩, fun _ => rfl⟩, fun _ => ?_⟩
      refine ⟨List.mem_cons_self x l, hP, ?_⟩
      intro s hs _
      rcases List.mem_cons.mp hs with rfl | hmem
      · exact le_refl _
      · exact le_of_lt (hx s hmem)
    · have hstep : breakevenStep cpu opencl ⟨false, 0⟩ x = ⟨false, 0⟩ := by
        rw [breakevenStep, if_neg]
        intro hcontra
        exact hP hcontra.2
      have hrun : breakevenFoldl cpu opencl (x :: l) = breakevenFoldl cpu opencl l := by
        rw [breakevenFoldl, List.foldl_cons, hstep]
        rfl
      rw [hrun]
      obtain ⟨ih1, ih2⟩ := ih hpl
      constructor
      · rw [ih1]
        constructor
        · rintro ⟨s, hs, hlt⟩
          exact ⟨s, List.mem_cons_of_mem x hs, hlt⟩
        · rintro ⟨s, hs, hlt⟩
          rcases List.mem_cons.mp hs with rfl | hmem
          · exact absurd hlt hP
          · exact ⟨s, hmem, hlt⟩
      · intro hfound
        obtain ⟨hmem, hlt, hmin⟩ := ih2 hfound
        refine ⟨List.mem_cons_of_mem x hmem, hlt, ?_⟩
        intro s hs hslt
        rcases List.mem_cons.mp hs with rfl | hmem'
        · exact absurd hslt hP
        · exact hmin s hmem' hslt

/-! ## Helper lemmas: matmulSerial of example 006 -/

theorem rowcol_index_inj (K i j i' j' : Nat) (hj : j < K) (hj' : j' < K)
    (h : i * K + j = i' * K + j') : i = i' ∧ j = j' := by
  have hK : 0 < K := lt_of_le_of_lt (Nat.zero_le j) hj
  have hmod : ∀ a b : Nat, b < K → (a * K + b) % K = b := by
    intro a b hb
    rw [Nat.mul_comm a K, Nat.mul_add_mod, Nat.mod_eq_of_lt hb]
  have hjj : j = j' := by
    have := hmod i j hj
    rw [h, hmod i' j' hj'] at this
    omega
  subst hjj
  have hii : i * K = i' * K := by omega
  exact ⟨Nat.eq_of_mul_eq_mul_right hK hii, rfl⟩

theorem matmulRow_aux_writes (A B : Nat → ℝ) (N K i : Nat) :
    ∀ (k : Nat) (C : Nat → ℝ) (j : Nat), j < k →
      (List.range k).foldl
        (fun c j => writeAt c (i * K + j) (matmulInner A B N K i j)) C
        (i * K + j) = matmulInner A B N K i j := by
  intro k
  induction k with
  | zero => intro C j hj; omega
  | succ k ih =>
    intro C j hj
    rw [List.range_succ, List.foldl_append, List.foldl_cons, List.foldl_nil]
    by_cases hjk : j = k
    · subst hjk
      rw [writeAt, if_pos rfl]
    · have hne : i * K + j ≠ i * K + k := by omega
      rw [writeAt, if_neg hne]
      exact ih C j (by omega)

theorem matmulRow_aux_untouched (A B : Nat → ℝ) (N K i : Nat) :
    ∀ (k : Nat) (C : Nat → ℝ) (m : Nat), (∀ j, j < k → m ≠ i * K + j) →
      (List.range k).foldl
        (fun c j => writeAt c (i * K + j) (matmulInner A B N K i j)) C m
        = C m := by
  intro k
  induction k with
  | zero => intro C m _; rfl
  | succ k ih =>
    intro C m hm
    rw [List.range_succ, List.foldl_append, List.foldl_cons, List.foldl_nil]
    rw [writeAt, if_neg (hm k (by omega))]
    exact ih C m (fun j hj => hm j (by omega))

theorem matmulSerial_aux_writes (A B : Nat → ℝ) (N K : Nat) :
    ∀ (rows : Nat) (C : Nat → ℝ) (i j : Nat), i < rows → j < K →
      (List.range rows).foldl (fun c i => matmulRow A B N K i c) C
        (i * K + j) = matmulInner A B N K i j := by
  intro rows
  induction rows with
  | zero => intro C i j hi _; omega
  | succ rows ih =>
    intro C i j hi hj
    rw [List.range_succ, List.foldl_append, List.foldl_cons, List.foldl_nil]
    by_cases hir : i = rows
    · subst hir
      exact matmulRow_aux_writes A B N K i K _ j hj
    · rw [matmulRow]
      rw [matmulRow_aux_untouched A B N K rows K _ (i * K + j) ?_]
      · exact ih C i j (by omega) hj
      · intro j' hj' heq
        have := rowcol_index_inj K i j rows j' hj hj' heq
        exact hir this.1

theorem matmulSerial_aux_untouched (A B : Nat → ℝ) (N K : Nat) :
    ∀ (rows : Nat) (C : Nat → ℝ) (m : Nat),
      (∀ i j, i < rows → j < K → m ≠ i * K + j) →
      (List.range rows).foldl (fun c i => matmulRow A B N K i c) C m = C m := by
  intro rows
  induction rows with
  | zero => intro C m _; rfl
  | succ rows ih =>
    intro C m hm
    rw [List.range_succ, List.foldl_append, List.foldl_cons, List.foldl_nil]
    rw [matmulRow]
    rw [matmulRow_aux_untouched A B N K rows K _ m
      (fun j hj => hm rows j (by omega) hj)]
    exact ih C m (fun i j hi hj => hm i j (by omega) hj)

/-! ## Helper lemmas: tiled vs naive matrix multiply -/

theorem foldl_add_zero (g : Nat → ℝ) :
    ∀ l : List Nat, (∀ i ∈ l, g i = 0) → ∀ s : ℝ,
      l.foldl (fun acc i => acc + g i) s = s := by
  intro l
  induction l with
  | nil => intro _ s; rfl
  | cons x l ih =>
    intro h s
    rw [List.foldl_cons, h x (List.mem_cons_self x l), add_zero]
    exact ih (fun i hi => h i (List.mem_cons_of_mem x hi)) s

theorem tile_flatten_foldl (g : Nat → ℝ) :
    ∀ (T : Nat) (s : ℝ),
      (List.range T).foldl
        (fun sum t =>
          (List.range TILE_SIZE).foldl
            (fun s2 k => s2 + g (t * TILE_SIZE + k)) sum) s =
      (List.range (T * TILE_SIZE)).foldl (fun acc i => acc + g i) s := by
  intro T
  induction T with
  | zero => intro s; rfl
  | succ T ih =>
    intro s
    rw [List.range_succ, List.foldl_append, List.foldl_cons, List.foldl_nil, ih,
      show (T + 1) * TILE_SIZE = T * TILE_SIZE + TILE_SIZE from by ring,
      List.range_add, List.foldl_append, List.foldl_map]

theorem tile_flatten_map (g : Nat → ℝ) :
    ∀ T : Nat,
      (List.range T).flatMap
        (fun t => (List.range TILE_SIZE).map (fun k => g (t * TILE_SIZE + k))) =
      (List.range (T * TILE_SIZE)).map g := by
  intro T
  induction T with
  | zero => rfl
  | succ T ih =>
    rw [List.range_succ, List.flatMap_append, ih,
      show (T + 1) * TILE_SIZE = T * TILE_SIZE + TILE_SIZE from by ring,
      List.range_add, List.map_append, List.map_map]
    rfl

theorem le_numTiles_mul (N : Nat) : N ≤ numTiles N * TILE_SIZE := by
  simp only [numTiles, TILE_SIZE]
  omega

theorem tile_term_eval (A B : Nat → ℝ) (M N K row col : Nat)
    (hrow : row < M) (hcol : col < K) (t k : Nat) :
    A_tile A M N (row / TILE_SIZE) t (row % TILE_SIZE) k *
      B_tile B N K (col / TILE_SIZE) t k (col % TILE_SIZE) =
    if t * TILE_SIZE + k < N then
      A (row * N + (t * TILE_SIZE + k)) * B ((t * TILE_SIZE + k) * K + col)
    else 0 := by
  have hrowid : row / TILE_SIZE * TILE_SIZE + row % TILE_SIZE = row := by
    rw [Nat.mul_comm]
    exact Nat.div_add_mod row TILE_SIZE
  have hcolid : col / TILE_SIZE * TILE_SIZE + col % TILE_SIZE = col := by
    rw [Nat.mul_comm]
    exact Nat.div_add_mod col TILE_SIZE
  rw [A_tile, B_tile, hrowid, hcolid]
  by_cases hN : t * TILE_SIZE + k < N
  · rw [if_pos ⟨hrow, hN⟩, if_pos ⟨hN, hcol⟩, if_pos hN]
  · rw [if_neg (fun hc => hN hc.2), if_neg (fun hc => hN hc.1), if_neg hN,
      mul_zero]

theorem tiled_entry_eq_naive (A B : Nat → ℝ) (M N K row col : Nat)
    (hrow : row < M) (hcol : col < K) :
    matrix_multiply_tiled_entry A B M N K row col =
      matrix_multiply_entry A B N K row col := by
  have hg1 : matrix_multiply_tiled_entry A B M N K row col =
      (List.range (numTiles N)).foldl
        (fun sum t => (List.range TILE_SIZE).foldl
          (fun s2 k => s2 + (if t * TILE_SIZE + k < N then
            A (row * N + (t * TILE_SIZE + k)) *
              B ((t * TILE_SIZE + k) * K + col)
            else 0)) sum) 0 :=
    foldl_congr_fun (List.range (numTiles N))
      (fun sum t => (List.range TILE_SIZE).foldl
        (fun s2 k =>
          s2 + A_tile A M N (row / TILE_SIZE) t (row % TILE_SIZE) k *
            B_tile B N K (col / TILE_SIZE) t k (col % TILE_SIZE)) sum)
      (fun sum t => (List.range TILE_SIZE).foldl
        (fun s2 k => s2 + (if t * TILE_SIZE + k < N then
          A (row * N + (t * TILE_SIZE + k)) *
            B ((t * TILE_SIZE + k) * K + col)
          else 0)) sum)
      (fun s t _ => foldl_congr_fun (List.range TILE_SIZE) _ _
        (fun s2 k _ => by
          rw [tile_term_eval A B M N K row col hrow hcol t k]) s) 0
  have hg2 : (List.range (numTiles N)).foldl
      (fun sum t => (List.range TILE_SIZE).foldl
        (fun s2 k => s2 + (if t * TILE_SIZE + k < N then
          A (row * N + (t * TILE_SIZE + k)) *
            B ((t * TILE_SIZE + k) * K + col)
          else 0)) sum) 0 =
      (List.range (numTiles N * TILE_SIZE)).foldl
        (fun acc i => acc + (if i < N then
          A (row * N + i) * B (i * K + col) else 0)) 0 :=
    tile_flatten_foldl
      (fun i => if i < N then A (row * N + i) * B (i * K + col) else 0)
      (numTiles N) 0
  have hsplit : (List.range (numTiles N * TILE_SIZE)).foldl
      (fun acc i => acc + (if i < N then
        A (row * N + i) * B (i * K + col) else 0)) 0 =
      (List.range N).foldl
        (fun acc i => acc + (if i < N then
          A (row * N + i) * B (i * K + col) else 0)) 0 := by
    rw [show numTiles N * TILE_SIZE = N + (numTiles N * TILE_SIZE - N) from
        (Nat.add_sub_cancel' (le_numTiles_mul N)).symm,
      List.range_add, List.foldl_append, List.foldl_map]
    exact foldl_add_zero
      (fun y => if N + y < N then
        A (row * N + (N + y)) * B ((N + y) * K + col) else 0)
      (List.range (numTiles N * TILE_SIZE - N))
      (fun y _ => by
        simp only [if_neg (show ¬ (N + y < N) from by omega)]) _
  have hnaive : (List.range N).foldl
      (fun acc i => acc + (if i < N then
        A (row * N + i) * B (i * K + col) else 0)) 0 =
      matrix_multiply_entry A B N K row col :=
    foldl_congr_fun (List.range N) _ _
      (fun s i hi => by rw [if_pos (List.mem_range.mp hi)]) 0
  exact hg1.trans (hg2.trans (hsplit.trans hnaive))

theorem tiledTerms_eq_naive_pad (A B : Nat → ℝ) (M N K row col : Nat)
    (hrow : row < M) (hcol : col < K) :
    tiledTerms A B M N K row col =
      naiveTerms A B N K row col ++
        List.replicate (numTiles N * TILE_SIZE - N) 0 := by
  have hg1 : tiledTerms A B M N K row col =
      (List.range (numTiles N)).flatMap
        (fun t => (List.range TILE_SIZE).map
          (fun k => if t * TILE_SIZE + k < N then
            A (row * N + (t * TILE_SIZE + k)) *
              B ((t * TILE_SIZE + k) * K + col)
            else 0)) := by
    rw [tiledTerms]
    congr 1
    funext t
    exact List.map_congr_left
      (fun k _ => tile_term_eval A B M N K row col hrow hcol t k)
  have hg2 : (List.range (numTiles N)).flatMap
      (fun t => (List.range TILE_SIZE).map
        (fun k => if t * TILE_SIZE + k < N then
          A (row * N + (t * TILE_SIZE + k)) *
            B ((t * TILE_SIZE + k) * K + col)
          else 0)) =
      (List.range (numTiles N * TILE_SIZE)).map
        (fun i => if i < N then A (row * N + i) * B (i * K + col) else 0) :=
    tile_flatten_map
      (fun i => if i < N then A (row * N + i) * B (i * K + col) else 0)
      (numTiles N)
  rw [hg1, hg2,
    show numTiles N * TILE_SIZE = N + (numTiles N * TILE_SIZE - N) from
      (Nat.add_sub_cancel' (le_numTiles_mul N)).symm,
    List.range_add, List.map_append]
  congr 1
  · rw [naiveTerms]
    exact List.map_congr_left
      (fun i hi => by rw [if_pos (List.mem_range.mp hi)])
  · rw [List.map_map,
      show ((fun i => if i < N then
          A (row * N + i) * B (i * K + col) else 0) ∘ (N + ·)) =
        (fun _ : Nat => (0 : ℝ)) from by
          funext y
          simp only [Function.comp]
          rw [if_neg (by omega)],
      List.map_const', List.length_range]
    congr 1
    have := le_numTiles_mul N
    omega

/-! ## Helper lemmas: the 004 event trace -/

theorem precedes_append (a b : Ev) (xs ys : List Ev)
    (ha : a ∈ xs) (hb : b ∉ xs) : Precedes a b (xs ++ ys) := by
  intro q hq hget
  have hqx : ¬ q < xs.length := by
    intro hlt
    apply hb
    have hsplit : (xs ++ ys).get ⟨q, hq⟩ = xs.get ⟨q, hlt⟩ :=
      List.get_append q hlt
    rw [hsplit] at hget
    rw [← hget]
    exact List.get_mem xs q hlt
  obtain ⟨⟨p, hp⟩, hpa⟩ := List.mem_iff_get.mp ha
  have hplen : p < (xs ++ ys).length := by
    rw [List.length_append]
    omega
  refine ⟨p, hplen, by omega, ?_⟩
  have hsplit : (xs ++ ys).get ⟨p, hplen⟩ = xs.get ⟨p, hp⟩ :=
    List.get_append p hp
  rw [hsplit]
  exact hpa

theorem mem_setupPhase (i : Nat) (e : Ev) (he : e ∈ setupEvents i) :
    ∀ n, i < n → e ∈ setupPhase n := by
  intro n
  induction n with
  | zero => intro h; omega
  | succ n ih =>
    intro hi
    rw [setupPhase, List.mem_append]
    by_cases hin : i = n
    · subst hin; exact Or.inr he
    · exact Or.inl (ih (by omega))

theorem mem_launchPhase (i : Nat) : ∀ n, i < n → Ev.launch i ∈ launchPhase n := by
  intro n
  induction n with
  | zero => intro h; omega
  | succ n ih =>
    intro hi
    rw [launchPhase, List.mem_append]
    by_cases hin : i = n
    · subst hin; exact Or.inr (List.mem_singleton_self _)
    · exact Or.inl (ih (by omega))

theorem mem_waitPhase (i : Nat) : ∀ n, i < n → Ev.wait i ∈ waitPhase n := by
  intro n
  induction n with
  | zero => intro h; omega
  | succ n ih =>
    intro hi
    rw [waitPhase, List.mem_append]
    by_cases hin : i = n
    · subst hin; exact Or.inr (List.mem_singleton_self _)
    · exact Or.inl (ih (by omega))

theorem mem_readPhase (i : Nat) : ∀ n, i < n → Ev.readChunk i ∈ readPhase n := by
  intro n
  induction n with
  | zero => intro h; omega
  | succ n ih =>
    intro hi
    rw [readPhase, List.mem_append]
    by_cases hin : i = n
    · subst hin; exact Or.inr (List.mem_singleton_self _)
    · exact Or.inl (ih (by omega))

theorem not_mem_setupPhase (e : Ev) (h : ∀ i, e ∉ setupEvents i) :
    ∀ n, e ∉ setupPhase n := by
  intro n
  induction n with
  | zero => simp [setupPhase]
  | succ n ih =>
    rw [setupPhase, List.mem_append]
    rintro (h1 | h2)
    · exact ih h1
    · exact h n h2

theorem not_mem_launchPhase (e : Ev) (h : ∀ i, e ≠ Ev.launch i) :
    ∀ n, e ∉ launchPhase n := by
  intro n
  induction n with
  | zero => simp [launchPhase]
  | succ n ih =>
    rw [launchPhase, List.mem_append]
    rintro (h1 | h2)
    · exact ih h1
    · exact h n (List.mem_singleton.mp h2)

theorem not_mem_waitPhase (e : Ev) (h : ∀ i, e ≠ Ev.wait i) :
    ∀ n, e ∉ waitPhase n := by
  intro n
  induction n with
  | zero => simp [waitPhase]
  | succ n ih =>
    rw [waitPhase, List.mem_append]
    rintro (h1 | h2)
    · exact ih h1
    · exact h n (List.mem_singleton.mp h2)

theorem not_mem_timelinePhase (e : Ev) (h : ∀ i, e ≠ Ev.readTime i) :
    ∀ n, e ∉ timelinePhase n := by
  intro n
  induction n with
  | zero => simp [timelinePhase]
  | succ n ih =>
    rw [timelinePhase, List.mem_append]
    rintro (h1 | h2)
    · exact ih h1
    · rcases List.mem_cons.mp h2 with h3 | h3
      · exact h n h3
      · exact h n (List.mem_singleton.mp h3)

theorem not_mem_readPhase (e : Ev) (h : ∀ i, e ≠ Ev.readChunk i) :
    ∀ n, e ∉ readPhase n := by
  intro n
  induction n with
  | zero => simp [readPhase]
  | succ n ih =>
    rw [readPhase, List.mem_append]
    rintro (h1 | h2)
    · exact ih h1
    · exact h n (List.mem_singleton.mp h2)

theorem not_mem_concPhase (e : Ev) (h : ∀ i, e ≠ Ev.readTime i) (n : Nat) :
    e ∉ concPhase n := by
  rw [concPhase]
  intro hmem
  rw [List.mem_flatMap] at hmem
  obtain ⟨i, _, hmem2⟩ := hmem
  rw [List.mem_flatMap] at hmem2
  obtain ⟨j, _, hmem3⟩ := hmem2
  by_cases hij : i < j
  · rw [if_pos hij] at hmem3
    simp only [List.mem_cons, List.not_mem_nil, or_false] at hmem3
    rcases hmem3 with h1 | h1 | h1 | h1
    · exact h i h1
    · exact h i h1
    · exact h j h1
    · exact h j h1
  · rw [if_neg hij] at hmem3
    exact absurd hmem3 (List.not_mem_nil _)

/-! ## Claim theorems -/

/-- C1: in example 004, for every device count num_devices ≥ 1 the chunk
decomposition (offset `i * chunk_size`, size `chunk_size` for
`i < num_devices - 1`, size `ARRAY_SIZE - (num_devices-1) * chunk_size`
for the last device) yields pairwise disjoint index ranges whose sizes sum
to ARRAY_SIZE = 16777216 and which together cover exactly the indices
`0 .. ARRAY_SIZE - 1`. -/
theorem claim_C1_chunks_partition (n : Nat) (hn : 1 ≤ n) :
    (∑ i ∈ Finset.range n, chunkLen n i = ARRAY_SIZE) ∧
    (∀ i j, i < n → j < n → i ≠ j → Disjoint (chunk n i) (chunk n j)) ∧
    Finset.biUnion (Finset.range n) (chunk n) = Finset.range ARRAY_SIZE :=
  ⟨chunkLen_sum n hn,
   fun i j hi hj hne => chunks_disjoint n i j hi hj hne,
   chunks_biUnion n hn⟩

/-- Witness for C1 at num_devices = 3. -/
theorem claim_C1_chunks_partition_witness :
    (∑ i ∈ Finset.range 3, chunkLen 3 i = ARRAY_SIZE) ∧
    (∀ i j, i < 3 → j < 3 → i ≠ j → Disjoint (chunk 3 i) (chunk 3 j)) ∧
    Finset.biUnion (Finset.range 3) (chunk 3) = Finset.range ARRAY_SIZE :=
  claim_C1_chunks_partition 3 (by decide)

/-- C2: in example 004, for every device count ≥ 1 and all inputs A and B,
distributing the vector addition across the devices and reading each chunk
back at its offset produces C with `C[j] = A[j] + B[j]` for every
`j < ARRAY_SIZE`, identical to a single device processing the whole array
in one launch. -/
theorem claim_C2_multidevice_refines_single (n : Nat) (hn : 1 ≤ n)
    (A B C0 C0' : Nat → Int) (j : Nat) (hj : j < ARRAY_SIZE) :
    multiDeviceC A B n C0 j = A j + B j ∧
    multiDeviceC A B n C0 j = singleDeviceC A B C0' j := by
  obtain ⟨i, hi, hji⟩ := chunks_cover_mem n hn j hj
  have h1 : multiDeviceC A B n C0 j = A j + B j :=
    runDevices_covered A B n C0 n (le_refl n) i j hi hji
  have h2 : singleDeviceC A B C0' j = A j + B j := by
    simp only [singleDeviceC, readBackChunk]
    rw [if_pos ⟨Nat.zero_le j, by omega⟩]
    simp [deviceOutBuf, vector_add004, deviceInBuf]
  exact ⟨h1, h1.trans h2.symm⟩

/-- Witness for C2 at num_devices = 2, j = 5, constant inputs. -/
theorem claim_C2_multidevice_refines_single_witness :
    multiDeviceC (fun _ => (1 : Int)) (fun _ => 2) 2 (fun _ => 0) 5 = 1 + 2 ∧
    multiDeviceC (fun _ => (1 : Int)) (fun _ => 2) 2 (fun _ => 0) 5 =
      singleDeviceC (fun _ => (1 : Int)) (fun _ => 2) (fun _ => 7) 5 :=
  claim_C2_multidevice_refines_single 2 (by decide) _ _ _ _ 5 (by decide)

/-- C3 as stated is false on the code: in example 000, the device-count
query branch at status -1 (≠ CL_SUCCESS) skips the platform and continues;
it does not terminate the program with exit status 1. -/
theorem claim_C3_counterexample :
    deviceQueryBranch000 (-1) = HostAction.skipPlatform ∧
    deviceQueryBranch000 (-1) ≠ HostAction.exitWith 1 := by
  constructor
  · rfl
  · decide

/-- C3 (amended): the checkError helper of 001/003/005/006 and the
CHECK_ERROR macro of 004 print a diagnostic and exit(1) on every status
other than CL_SUCCESS, but example 000's platform loop and the
device-discovery loops of 004/005/006 instead skip a failing platform and
continue with the remaining ones. -/
theorem claim_C3_amended (err : Int) (h : err ≠ CL_SUCCESS) :
    checkError err = HostAction.exitWith 1 ∧
    deviceQueryBranch000 err = HostAction.skipPlatform ∧
    ∀ numDevices, discoveryBranch err numDevices = HostAction.skipPlatform := by
  refine ⟨?_, ?_, fun nd => ?_⟩
  · rw [checkError, if_pos h]
  · rw [deviceQueryBranch000, if_pos h]
  · rw [discoveryBranch, if_neg (fun hc => h hc.1)]

/-- Witness for the amended C3 at status -1. -/
theorem claim_C3_amended_witness :
    checkError (-1) = HostAction.exitWith 1 ∧
    deviceQueryBranch000 (-1) = HostAction.skipPlatform ∧
    ∀ numDevices, discoveryBranch (-1) numDevices = HostAction.skipPlatform :=
  claim_C3_amended (-1) (by decide)

/-- C4: for every M, N, K and all inputs A and B, the tiled kernel writes
to every in-range output element (row < M, col < K) exactly the value the
naive kernel writes, and the sequence of products it accumulates is the
naive kernel's sequence (same index order i = 0 .. N-1) followed only by
zero padding terms. -/
theorem claim_C4_tiled_matches_naive (A B : Nat → ℝ) (M N K row col : Nat)
    (hrow : row < M) (hcol : col < K) :
    matrix_multiply_tiled_entry A B M N K row col =
      matrix_multiply_entry A B N K row col ∧
    tiledTerms A B M N K row col =
      naiveTerms A B N K row col ++
        List.replicate (numTiles N * TILE_SIZE - N) 0 :=
  ⟨tiled_entry_eq_naive A B M N K row col hrow hcol,
   tiledTerms_eq_naive_pad A B M N K row col hrow hcol⟩

/-- Witness for C4 at M = N = K = 1, row = col = 0, constant inputs. -/
theorem claim_C4_tiled_matches_naive_witness :
    matrix_multiply_tiled_entry (fun _ => (1 : ℝ)) (fun _ => 1) 1 1 1 0 0 =
      matrix_multiply_entry (fun _ => (1 : ℝ)) (fun _ => 1) 1 1 0 0 ∧
    tiledTerms (fun _ => (1 : ℝ)) (fun _ => 1) 1 1 1 0 0 =
      naiveTerms (fun _ => (1 : ℝ)) (fun _ => 1) 1 1 0 0 ++
        List.replicate (numTiles 1 * TILE_SIZE - 1) 0 :=
  claim_C4_tiled_matches_naive (fun _ => 1) (fun _ => 1) 1 1 1 0 0
    (by decide) (by decide)

/-- C5: in example 003, for every device and all measured timings, the
loop's final state has found = true iff some tested size had a strictly
smaller OpenCL time than the serial CPU time, and in that case the
recorded breakeven point is the smallest tested size with that property
(so the not-reached message is printed iff no tested size satisfied the
comparison). -/
theorem claim_C5_breakeven (cpu opencl : Nat → ℚ) :
    ((breakevenRun cpu opencl).found = true ↔
      ∃ s ∈ testSizes, opencl s < cpu s) ∧
    ((breakevenRun cpu opencl).found = true →
      (breakevenRun cpu opencl).point ∈ testSizes ∧
      opencl (breakevenRun cpu opencl).point <
        cpu (breakevenRun cpu opencl).point ∧
      ∀ s ∈ testSizes, opencl s < cpu s →
        (breakevenRun cpu opencl).point ≤ s) :=
  breakeven_foldl_spec cpu opencl testSizes (by decide)

/-- Witness for C5: constant CPU time 1, OpenCL time 2 below size 65536
and 0 from 65536 on; the loop finds breakeven exactly at 65536. -/
theorem claim_C5_breakeven_witness :
    (breakevenRun (fun _ => (1 : ℚ))
        (fun s => if s < 65536 then 2 else 0)).point ∈ testSizes ∧
    (fun s => if s < 65536 then (2 : ℚ) else 0)
        ((breakevenRun (fun _ => (1 : ℚ))
          (fun s => if s < 65536 then 2 else 0)).point) <
      (fun _ => (1 : ℚ))
        ((breakevenRun (fun _ => (1 : ℚ))
          (fun s => if s < 65536 then 2 else 0)).point) ∧
    ∀ s ∈ testSizes,
      (fun s => if s < 65536 then (2 : ℚ) else 0) s < (fun _ => (1 : ℚ)) s →
        (breakevenRun (fun _ => (1 : ℚ))
          (fun s => if s < 65536 then 2 else 0)).point ≤ s :=
  (claim_C5_breakeven (fun _ => 1) (fun s => if s < 65536 then 2 else 0)).2
    (by decide)

/-- C6: in example 004 the phases occur in the fixed program order
(enumerate, setup with build and buffer creation, launch, wait, timeline,
concurrency analysis, read back, release): no kernel is enqueued before
its device's program was built and its three buffers created, no profiling
time is read before the kernel event was waited on, and no object is
released before the result chunks were read back. -/
theorem claim_C6_phase_order (n i j bslot o : Nat)
    (hi : i < n) (hj : j < n) (hb : bslot < 3) (ho : o < 8) :
    Precedes (Ev.build i) (Ev.launch i) (trace004 n) ∧
    Precedes (Ev.createBuf i bslot) (Ev.launch i) (trace004 n) ∧
    Precedes (Ev.wait i) (Ev.readTime i) (trace004 n) ∧
    Precedes (Ev.readChunk j) (Ev.release i o) (trace004 n) := by
  have hLnotPre : ∀ i', Ev.launch i' ∉ ([Ev.enumerate] ++ setupPhase n) := by
    intro i' hmem
    rcases List.mem_append.mp hmem with h1 | h1
    · simp at h1
    · exact not_mem_setupPhase _ (fun i2 => by simp [setupEvents]) n h1
  refine ⟨?_, ?_, ?_, ?_⟩
  · exact precedes_append _ _ _ _
      (List.mem_append.mpr (Or.inr
        (mem_setupPhase i _ (by simp [setupEvents]) n hi)))
      (hLnotPre i)
  · have hbuf : Ev.createBuf i bslot ∈ setupEvents i := by
      have : bslot = 0 ∨ bslot = 1 ∨ bslot = 2 := by omega
      rcases this with rfl | rfl | rfl <;> simp [setupEvents]
    exact precedes_append _ _ _ _
      (List.mem_append.mpr (Or.inr (mem_setupPhase i _ hbuf n hi)))
      (hLnotPre i)
  · have ht3 : trace004 n =
        ((([Ev.enumerate] ++ setupPhase n) ++ launchPhase n) ++ waitPhase n)
          ++ (timelinePhase n ++ (concPhase n ++
            (readPhase n ++ releasePhase n))) := by
      simp [trace004, List.append_assoc]
    rw [ht3]
    refine precedes_append _ _ _ _
      (List.mem_append.mpr (Or.inr (mem_waitPhase i n hi))) ?_
    intro hmem
    rcases List.mem_append.mp hmem with h1 | h1
    · rcases List.mem_append.mp h1 with h2 | h2
      · rcases List.mem_append.mp h2 with h3 | h3
        · simp at h3
        · exact not_mem_setupPhase _ (fun i2 => by simp [setupEvents]) n h3
      · exact not_mem_launchPhase _ (fun i2 => by simp) n h2
    · exact not_mem_waitPhase _ (fun i2 => by simp) n h1
  · have ht4 : trace004 n =
        (((((([Ev.enumerate] ++ setupPhase n) ++ launchPhase n) ++
          waitPhase n) ++ timelinePhase n) ++ concPhase n) ++ readPhase n)
          ++ releasePhase n := by
      simp [trace004, List.append_assoc]
    rw [ht4]
    refine precedes_append _ _ _ _
      (List.mem_append.mpr (Or.inr (mem_readPhase j n hj))) ?_
    intro hmem
    rcases List.mem_append.mp hmem with h1 | h1
    · rcases List.mem_append.mp h1 with h2 | h2
      · rcases List.mem_append.mp h2 with h3 | h3
        · rcases List.mem_append.mp h3 with h4 | h4
          · rcases List.mem_append.mp h4 with h5 | h5
            · rcases List.mem_append.mp h5 with h6 | h6
              · simp at h6
              · exact not_mem_setupPhase _
                  (fun i2 => by simp [setupEvents]) n h6
            · exact not_mem_launchPhase _ (fun i2 => by simp) n h5
          · exact not_mem_waitPhase _ (fun i2 => by simp) n h4
        · exact not_mem_timelinePhase _ (fun i2 => by simp) n h3
      · exact not_mem_concPhase _ (fun i2 => by simp) n h2
    · exact not_mem_readPhase _ (fun i2 => by simp) n h1

/-- Witness for C6 at n = 2, devices 0 and 1, buffer slot 0, object 0. -/
theorem claim_C6_phase_order_witness :
    Precedes (Ev.build 0) (Ev.launch 0) (trace004 2) ∧
    Precedes (Ev.createBuf 0 0) (Ev.launch 0) (trace004 2) ∧
    Precedes (Ev.wait 0) (Ev.readTime 0) (trace004 2) ∧
    Precedes (Ev.readChunk 1) (Ev.release 0 0) (trace004 2) :=
  claim_C6_phase_order 2 0 1 0 0 (by decide) (by decide) (by decide)
    (by decide)

/-- C7: in example 006, matmulSerial sets C[i*K+j], for every i < M and
j < K, to the left-to-right accumulation (from 0.0f) of the products
A[i*N+k] * B[k*K+j] for k = 0 .. N-1, and writes no other element of C. -/
theorem claim_C7_matmulSerial_spec (A B : Nat → ℝ) (M N K : Nat)
    (C0 : Nat → ℝ) :
    (∀ i j, i < M → j < K →
      matmulSerial A B M N K C0 (i * K + j) =
        (List.range N).foldl
          (fun sum k => sum + A (i * N + k) * B (k * K + j)) 0) ∧
    (∀ m, (∀ i j, i < M → j < K → m ≠ i * K + j) →
      matmulSerial A B M N K C0 m = C0 m) := by
  constructor
  · intro i j hi hj
    exact matmulSerial_aux_writes A B N K M C0 i j hi hj
  · intro m hm
    exact matmulSerial_aux_untouched A B N K M C0 m hm

/-- Witness for C7 at M = N = K = 1, element (0, 0), constant inputs. -/
theorem claim_C7_matmulSerial_spec_witness :
    matmulSerial (fun _ => (1 : ℝ)) (fun _ => 1) 1 1 1 (fun _ => 0)
        (0 * 1 + 0) =
      (List.range 1).foldl (fun sum _ => sum + 1 * 1) 0 :=
  (claim_C7_matmulSerial_spec (fun _ => 1) (fun _ => 1) 1 1 1
    (fun _ => 0)).1 0 0 (by decide) (by decide)

/-- C8: 004 computes ARRAY_SIZE / num_devices with no guard against zero
devices: under a guarded embedding of the division the error branch is
taken exactly when the discovered device count is 0, and for every count
≥ 1 the division is defined and yields chunk_size. -/
theorem claim_C8_div_guard (n : Nat) :
    chunkSizeChecked 0 = none ∧
    ((chunkSizeChecked n).isSome ↔ 1 ≤ n) ∧
    (1 ≤ n → chunkSizeChecked n = some (chunk_size n)) := by
  refine ⟨rfl, ⟨?_, ?_⟩, ?_⟩
  · intro hs
    by_contra hlt
    have hn0 : n = 0 := by omega
    subst hn0
    simp [chunkSizeChecked] at hs
  · intro hn
    rw [chunkSizeChecked, if_neg (by omega)]
    rfl
  · intro hn
    rw [chunkSizeChecked, if_neg (by omega)]
    rfl

/-- Witness for C8 at num_devices = 3 and at the failing count 0. -/
theorem claim_C8_div_guard_witness :
    chunkSizeChecked 3 = some (chunk_size 3) ∧ chunkSizeChecked 0 = none :=
  ⟨(claim_C8_div_guard 3).2.2 (by decide), (claim_C8_div_guard 0).1⟩

/-- C9: 004 prints PASSED iff C[i] = A[i] + B[i] for every i < 10, and the
verdict never depends on any element at index ≥ 10. -/
theorem claim_C9_verification_first10 (A B C : Nat → Int) :
    (verify004 A B C = true ↔ ∀ i, i < 10 → C i = A i + B i) ∧
    (∀ C' : Nat → Int, (∀ i, i < 10 → C i = C' i) →
      verify004 A B C = verify004 A B C') := by
  constructor
  · have h := verify_foldl_true_iff (fun i => C i = A i + B i)
      (List.range 10)
    constructor
    · intro hv i hi
      exact h.mp hv i (List.mem_range.mpr hi)
    · intro hall
      exact h.mpr (fun i hi => hall i (List.mem_range.mp hi))
  · intro C' hagree
    exact foldl_congr_fun (List.range 10) _ _
      (fun ok i hi => by rw [hagree i (List.mem_range.mp hi)]) true

/-- Witness for C9 on the all-zero arrays. -/
theorem claim_C9_verification_first10_witness :
    verify004 (fun _ => (0 : Int)) (fun _ => 0) (fun _ => 0) = true :=
  (claim_C9_verification_first10 (fun _ => 0) (fun _ => 0)
    (fun _ => 0)).1.mpr (fun i _ => by decide)

/-- C10: the guarded vector_add kernel writes a[gid] + b[gid] exactly for
work items with gid < n, and for any global size beyond n every element of
the result buffer at an index ≥ n is left unchanged. -/
theorem claim_C10_kernel_guard (a b : Nat → ℝ) (n globalSize : Nat)
    (r0 : Nat → ℝ) (hG : n < globalSize) :
    (∀ j, j < n → vector_add_run a b n globalSize r0 j = a j + b j) ∧
    (∀ j, n ≤ j → vector_add_run a b n globalSize r0 j = r0 j) := by
  constructor
  · intro j hj
    rw [vector_add_run_eval a b n globalSize r0 j, if_pos ⟨hj, by omega⟩]
  · intro j hj
    rw [vector_add_run_eval a b n globalSize r0 j,
      if_neg (fun hc => by omega)]

/-- Witness for C10 at n = 2, global size 3. -/
theorem claim_C10_kernel_guard_witness :
    vector_add_run (fun _ => (1 : ℝ)) (fun _ => 1) 2 3 (fun _ => 5) 1 =
        1 + 1 ∧
    vector_add_run (fun _ => (1 : ℝ)) (fun _ => 1) 2 3 (fun _ => 5) 2 = 5 :=
  ⟨(claim_C10_kernel_guard (fun _ => 1) (fun _ => 1) 2 3 (fun _ => 5)
      (by decide)).1 1 (by decide),
   (claim_C10_kernel_guard (fun _ => 1) (fun _ => 1) 2 3 (fun _ => 5)
      (by decide)).2 2 (by decide)⟩

end OpenCL
